import Mathlib

/-!
Verification development for the `python-override-mark` class-inheritance
analyzer.  The repository ships the fixture corpus (`py-sample/complex_cases.py`,
`py-sample/subclass.py`); the analyzer core itself (Declaration Extractor,
Symbol Resolver, Hierarchy Graph Builder, Linearization Engine, Override
Resolver) is specified but its implementation is not among the supplied
sources, so those components are modelled here from the specification and the
fixture declarations are embedded from the source files.
-/

namespace OverrideMark

/-- Modelled from the spec: the kind of a method-like member, derived from its
decorators (spec section 3, MethodDeclaration.kind). -/
inductive MethodKind where
  | plain
  | prop
  | abstract
deriving DecidableEq, Repr

/-- Modelled from the spec: an import declaration as extracted per file
(spec section 2: "import declarations (source module, imported name, optional
alias)").  `fromImport src orig loc` is `from src import orig as loc`;
`moduleImport src a` is `import src as a` (with `a = src` when unaliased). -/
inductive ImportDecl where
  | fromImport (sourceModule originalName localName : String)
  | moduleImport (sourceModule aliasName : String)
deriving DecidableEq, Repr

/-- Modelled from the spec: a base-class reference expression as written
(spec section 3, BaseRef): either a bare identifier or an `alias.attribute`
access. -/
inductive BaseRefExpr where
  | bare (name : String)
  | attr (aliasName name : String)
deriving DecidableEq, Repr

/-- Modelled from the spec: a raw method declaration as seen by the
Declaration Extractor: its name, the textual names of its attached decorators,
and whether its body textually invokes the ancestor-delegating construct
(spec section 4.1). -/
structure RawMethod where
  name : String
  decorators : List String
  calls_super : Bool
deriving DecidableEq, Repr

/-- Modelled from the spec: `kind` is derived purely from the set of decorator
names attached: a property decorator yields `prop`; an abstract-method marker
yields `abstract`; otherwise `plain`; `abstract` takes precedence when both
are present (spec section 3, MethodDeclaration). -/
def kindOfDecorators (ds : List String) : MethodKind :=
  if ds.contains "abstractmethod" then .abstract
  else if ds.contains "property" then .prop
  else .plain

/-- Modelled from the spec: MethodDeclaration (spec section 3). -/
structure MethodDeclaration where
  name : String
  kind : MethodKind
  calls_super : Bool
deriving DecidableEq, Repr

/-- Modelled from the spec: extraction of a method declaration from its raw
syntax: the kind comes only from the decorator names, with no symbol
resolution or import check (spec sections 3 and 4.1). -/
def extractMethod (m : RawMethod) : MethodDeclaration :=
  { name := m.name, kind := kindOfDecorators m.decorators, calls_super := m.calls_super }

/-- Modelled from the spec: ClassDeclaration (spec section 3); `module` plus
`localName` form the unique `qualified_id`. -/
structure ClassDeclaration where
  module : String
  localName : String
  declared_base_refs : List BaseRefExpr
  members : List MethodDeclaration
deriving DecidableEq, Repr

/-- Modelled from the spec: qualified_id = module path + local name
(spec section 3). -/
def ClassDeclaration.qualified_id (c : ClassDeclaration) : String :=
  c.module ++ "." ++ c.localName

/-- Modelled from the spec: one per-file declaration batch of the input
contract (spec section 6): module path, ordered import list, ordered class
list. -/
structure FileBatch where
  modulePath : String
  imports : List ImportDecl
  classes : List ClassDeclaration
deriving DecidableEq, Repr

/-! ## Fixture embedding

The fixture declarations below are embedded from the repository sources
`src/py-sample/complex_cases.py` and `src/py-sample/subclass.py`, read through
the Declaration Extractor's output format. -/

def mkMethod (n : String) (ds : List String) (sup : Bool) : MethodDeclaration :=
  extractMethod { name := n, decorators := ds, calls_super := sup }

/-- The file complex_cases.py as one per-file declaration batch. -/
def complexCasesBatch : FileBatch :=
  { modulePath := "complex_cases"
    imports :=
      [ .fromImport "parents" "Base" "Base"
      , .fromImport "parents" "Mixin" "Mixin"
      , .moduleImport "parents" "p" ]
    classes :=
      [ { module := "complex_cases", localName := "StandardChild"
          declared_base_refs := [.bare "Base"]
          members := [mkMethod "speak" [] false] }
      , { module := "complex_cases", localName := "AliasedChild"
          declared_base_refs := [.attr "p" "Base"]
          members := [mkMethod "speak" [] false] }
      , { module := "complex_cases", localName := "MultipleChild"
          declared_base_refs := [.bare "Base", .bare "Mixin"]
          members := [mkMethod "speak" [] false] }
      , { module := "complex_cases", localName := "MultiLineChild"
          declared_base_refs := [.bare "Base", .bare "Mixin"]
          members := [mkMethod "speak" [] false, mkMethod "walk" [] false] }
      , { module := "complex_cases", localName := "NestedParent"
          declared_base_refs := [.bare "MultiLineChild"]
          members := [] }
      , { module := "complex_cases", localName := "NestedChild"
          declared_base_refs := [.bare "NestedParent"]
          members := [mkMethod "speak" [] false, mkMethod "walk" [] false] }
      , { module := "complex_cases", localName := "Bread"
          declared_base_refs := []
          members := [mkMethod "prep" ["abstractmethod"] false] }
      , { module := "complex_cases", localName := "Sandwich"
          declared_base_refs := [.bare "Bread"]
          members := [mkMethod "prep" [] false, mkMethod "has_top" ["property"] false] }
      , { module := "complex_cases", localName := "Toast"
          declared_base_refs := [.bare "Bread"]
          members := [mkMethod "prep" [] false] }
      , { module := "complex_cases", localName := "Burger"
          declared_base_refs := [.bare "Sandwich"]
          members := [mkMethod "prep" [] false, mkMethod "has_top" ["property"] true] }
      , { module := "complex_cases", localName := "HotDog"
          declared_base_refs := [.bare "Bread"]
          members := [mkMethod "has_top" ["property"] false, mkMethod "prep" [] false] } ] }

/-- The file subclass.py as one per-file declaration batch. -/
def subclassBatch : FileBatch :=
  { modulePath := "subclass"
    imports :=
      [ .fromImport "dataclasses" "dataclass" "dataclass"
      , .fromImport "dataclasses" "Field" "Field"
      , .fromImport "dataclasses" "field" "field" ]
    classes :=
      [ { module := "subclass", localName := "ObjectA"
          declared_base_refs := []
          members := [mkMethod "method_a" [] false] }
      , { module := "subclass", localName := "ObjectB"
          declared_base_refs := [.bare "ObjectA"]
          members := [mkMethod "method_b" [] false] }
      , { module := "subclass", localName := "OtherObject"
          declared_base_refs := []
          members := [] } ] }

/-- Modelled from the spec: the fixture module `parents`, referenced by
`complex_cases.py` (`from parents import Base, Mixin` / `import parents as p`)
but whose file is not among the supplied sources; it declares the base classes
`Base` and `Mixin`. -/
def parentsBatch : FileBatch :=
  { modulePath := "parents"
    imports := []
    classes :=
      [ { module := "parents", localName := "Base"
          declared_base_refs := [], members := [] }
      , { module := "parents", localName := "Mixin"
          declared_base_refs := [], members := [] } ] }

/-- The fixture run: all per-file batches supplied together. -/
def fixtureRun : List FileBatch := [parentsBatch, complexCasesBatch, subclassBatch]

/-! ## Symbol Resolver -/

/-- Whether `run` declares a class with local name `n` in module `m`. -/
def declaresClass (run : List FileBatch) (m n : String) : Bool :=
  run.any fun b => b.modulePath == m && b.classes.any fun c => c.localName == n

/-- The (source module, original name) pair a direct `from module import Name`
binding gives local name `n`, per the file's import table. -/
def lookupFromImport (file : FileBatch) (n : String) : Option (String × String) :=
  file.imports.findSome? fun i =>
    match i with
    | .fromImport src orig loc => if loc == n then some (src, orig) else none
    | .moduleImport _ _ => none

/-- The module an alias resolves to (`import module as alias`), per the
file's import table. -/
def lookupModuleAlias (file : FileBatch) (a : String) : Option String :=
  file.imports.findSome? fun i =>
    match i with
    | .fromImport _ _ _ => none
    | .moduleImport src al => if al == a then some src else none

/-- Modelled from the spec: resolution of one base reference against the
complete symbol table (spec section 4.2).  Bare identifier refs resolve first
against classes declared in the same file, then against names imported
directly (`from module import Name`); attribute refs first resolve the alias
to a module import, then look `Name` up as a class declared in that module.
A ref that matches no known class is unresolvable (`none`). -/
def resolveBaseRef (run : List FileBatch) (file : FileBatch) :
    BaseRefExpr → Option String
  | .bare n =>
      if file.classes.any fun c => c.localName == n then
        some (file.modulePath ++ "." ++ n)
      else
        match lookupFromImport file n with
        | some (src, orig) =>
            if declaresClass run src orig then some (src ++ "." ++ orig) else none
        | none => none
  | .attr a n =>
      match lookupModuleAlias file a with
      | some src => if declaresClass run src n then some (src ++ "." ++ n) else none
      | none => none

/-! ## Hierarchy Graph Builder -/

/-- The hierarchy graph as adjacency lists keyed by qualified_id: one edge per
successfully resolved base ref, in declared order; unresolvable refs
contribute no edge (spec section 4.3). -/
def buildGraph (run : List FileBatch) : List (String × List String) :=
  run.flatMap fun file =>
    file.classes.map fun c =>
      (c.qualified_id, (c.declared_base_refs.filterMap (resolveBaseRef run file)))

/-- Resolved direct bases of a class in a graph (empty when unknown). -/
def bases (g : List (String × List String)) (c : String) : List String :=
  ((g.find? fun e => e.1 == c).map Prod.snd).getD []

/-- Fuel-bounded reachability along child-to-base edges in one or more
steps. -/
def reachesB (g : List (String × List String)) : Nat → String → String → Bool
  | 0, _, _ => false
  | fuel + 1, x, y =>
      (bases g x).any fun b => b == y || reachesB g fuel b y

/-- Enough fuel to explore any simple path of the graph. -/
def graphFuel (g : List (String × List String)) : Nat := g.length + 1

/-- Modelled from the spec: a class participates in a cycle when it is
reachable from itself through at least one inheritance edge (spec section
4.3, cycle detection by depth-first traversal). -/
def onCycle (g : List (String × List String)) (c : String) : Bool :=
  reachesB g (graphFuel g) c c

/-- The participating classes named by a `CyclicHierarchy` failure: every
class of the graph that lies on a cycle. -/
def cycleParticipants (g : List (String × List String)) : List String :=
  (g.map Prod.fst).filter (onCycle g)

/-- A class depends on a cycle when it lies on one or inherits (transitively)
from a class that does. -/
def dependsOnCycle (g : List (String × List String)) (c : String) : Bool :=
  onCycle g c || (g.map Prod.fst).any fun d => onCycle g d && reachesB g (graphFuel g) c d

/-! ## Linearization Engine -/

/-- A merge candidate is a head that does not appear in the tail of any other
list (spec section 4.4). -/
def goodHead (lists : List (List String)) (c : String) : Bool :=
  lists.all fun l => !(l.tail.contains c)

/-- The first head of any list that is a valid merge candidate. -/
def selectHead (lists : List (List String)) : Option String :=
  lists.findSome? fun l =>
    match l with
    | [] => none
    | h :: _ => if goodHead lists h then some h else none

/-- Drop the lists that have become empty. -/
def normalizeLists (lists : List (List String)) : List (List String) :=
  lists.filter fun l => !l.isEmpty

/-- Remove the selected class from all lists. -/
def removeSym (c : String) (lists : List (List String)) : List (List String) :=
  lists.map fun l => l.filter fun x => !(x == c)

/-- Modelled from the spec: the C3 merge rule (spec section 4.4): repeatedly
select the first head of any list that does not appear in the tail of any
other list; append it, remove it from all lists; repeat until all lists are
empty.  `none` is the `LinearizationError` outcome: no valid head can be
selected. -/
def merge : Nat → List (List String) → Option (List String)
  | 0, _ => none
  | fuel + 1, lists =>
      let ls := normalizeLists lists
      if ls.isEmpty then some []
      else
        match selectHead ls with
        | none => none
        | some c => (merge fuel (removeSym c ls)).map (c :: ·)

/-- Total number of elements across the merge input. -/
def totalLen (lists : List (List String)) : Nat :=
  (lists.map List.length).sum

/-- Sequence a list of optional values, failing when any entry is `none`. -/
def allSome {α : Type} : List (Option α) → Option (List α)
  | [] => some []
  | none :: _ => none
  | some x :: rest => (allSome rest).map (x :: ·)

/-- Modelled from the spec: C3-style linearization (spec section 4.4):
linearize(C) = C followed by the merge of the bases' linearizations and the
direct base list itself. -/
def linearize (g : List (String × List String)) : Nat → String → Option (List String)
  | 0, _ => none
  | fuel + 1, c =>
      match allSome ((bases g c).map (linearize g fuel)) with
      | none => none
      | some ls =>
          (merge (totalLen (ls ++ [bases g c]) + 1) (ls ++ [bases g c])).map (c :: ·)

/-- A merge state in which no valid head can be selected although lists
remain: the `LinearizationError` configuration (spec section 4.4). -/
def Stuck (lists : List (List String)) : Prop :=
  normalizeLists lists ≠ [] ∧ selectHead (normalizeLists lists) = none

/-- The states the merge loop passes through from a starting configuration:
the configuration itself, and every state obtained by selecting a valid head
and removing it from all lists. -/
inductive MergeReaches : List (List String) → List (List String) → Prop
  | refl (ls : List (List String)) : MergeReaches ls ls
  | step (ls s : List (List String)) (c : String) :
      selectHead (normalizeLists ls) = some c →
      MergeReaches (removeSym c (normalizeLists ls)) s →
      MergeReaches ls s

/-- The direct-inheritance step relation of a graph: `y` is a resolved direct
base of `x`. -/
def inheritsDir (g : List (String × List String)) (x y : String) : Prop :=
  y ∈ bases g x

/-- Enough linearization fuel for any acyclic graph. -/
def linFuel (g : List (String × List String)) : Nat := g.length + 1

/-! ## Override Resolver -/

/-- Modelled from the spec: the relationship an OverrideEdge classifies
(spec section 4.5). -/
inductive OverrideKind where
  | new
  | override
  | override_calls_ancestor
  | implements_abstract
deriving DecidableEq, Repr

/-- Modelled from the spec: OverrideEdge (spec section 3): class, method
name, classification and the nearest overriding target, if any. -/
structure OverrideEdge where
  class_id : String
  method_name : String
  kind : OverrideKind
  target : Option String
deriving DecidableEq, Repr

/-- Look a class declaration up by qualified_id across the run. -/
def findClass (run : List FileBatch) (cid : String) : Option ClassDeclaration :=
  run.findSome? fun b => b.classes.find? fun c => c.qualified_id == cid

/-- The member named `m` declared by the class `cid`, if any. -/
def findMember (run : List FileBatch) (cid m : String) : Option MethodDeclaration :=
  (findClass run cid).bind fun c => c.members.find? fun d => d.name == m

/-- Modelled from the spec: scan `C`'s linearization strictly after `C`
itself, in order; the first ancestor declaring a member named `m` is the
resolved override target (spec section 4.5). -/
def overrideTarget (run : List FileBatch) (lin : List String) (m : String) :
    Option (String × MethodDeclaration) :=
  lin.tail.findSome? fun a => (findMember run a m).map fun d => (a, d)

/-- Modelled from the spec: classification of a declared method (spec section
4.5): `new` when no ancestor declares the name; `implements_abstract` when the
nearest ancestor declaration is of kind `abstract`; `override_calls_ancestor`
when the declaring body invokes the ancestor-delegating construct; `override`
otherwise. -/
def classifyMember (run : List FileBatch) (lin : List String) (cid : String)
    (d : MethodDeclaration) : OverrideEdge :=
  match overrideTarget run lin d.name with
  | none => { class_id := cid, method_name := d.name, kind := .new, target := none }
  | some (a, anc) =>
      if anc.kind == .abstract then
        { class_id := cid, method_name := d.name, kind := .implements_abstract
          target := some a }
      else if d.calls_super then
        { class_id := cid, method_name := d.name, kind := .override_calls_ancestor
          target := some a }
      else
        { class_id := cid, method_name := d.name, kind := .override, target := some a }

/-- Modelled from the spec: the OverrideEdge set of one class: one edge per
member the class itself declares, computed over its linearization (spec
section 4.5). -/
def overrideEdges (run : List FileBatch) (lin : List String) (cid : String) :
    List OverrideEdge :=
  match findClass run cid with
  | none => []
  | some c => c.members.map (classifyMember run lin cid)

/-! ## Pipeline -/

/-- Modelled from the spec: errors attached to a class's result (spec
section 7). -/
inductive AnalysisError where
  | cyclicHierarchy (participants : List String)
  | linearizationError
deriving DecidableEq, Repr

/-- The full per-class result the core hands to the report emitter: the
linearization together with the OverrideEdge set. -/
structure ClassResult where
  lin : List String
  edges : List OverrideEdge
deriving DecidableEq, Repr

/-- Modelled from the spec: analysis of one class over the built graph:
a class on a cycle, or depending on one, fails with `CyclicHierarchy`
naming the participating classes (spec sections 4.3 and 7); otherwise its
linearization is computed, failing with `LinearizationError` when the merge
admits no valid head; otherwise the full result is produced. -/
def analyzeClass (run : List FileBatch) (g : List (String × List String))
    (cid : String) : Except AnalysisError ClassResult :=
  if dependsOnCycle g cid then
    .error (.cyclicHierarchy (cycleParticipants g))
  else
    match linearize g (linFuel g) cid with
    | none => .error .linearizationError
    | some lin => .ok { lin := lin, edges := overrideEdges run lin cid }

/-- Modelled from the spec: the full pipeline on the input contract (spec
section 6): build the graph from the merged declaration set and produce every
class's annotated result. -/
def runPipeline (run : List FileBatch) :
    List (String × Except AnalysisError ClassResult) :=
  let g := buildGraph run
  (run.flatMap fun b => b.classes.map ClassDeclaration.qualified_id).map fun cid =>
    (cid, analyzeClass run g cid)

/-- The result of one class in the fixture run. -/
def fixtureResult (cid : String) : Except AnalysisError ClassResult :=
  analyzeClass fixtureRun (buildGraph fixtureRun) cid

/-- The OverrideEdge produced for method `m` of class `cid` in the fixture
run, if any. -/
def fixtureEdge (cid m : String) : Option OverrideEdge :=
  match fixtureResult cid with
  | .ok r => r.edges.find? fun e => e.method_name == m
  | .error _ => none

/-- The names an import declaration binds in its file's namespace. -/
def ImportDecl.boundName : ImportDecl → String
  | .fromImport _ _ loc => loc
  | .moduleImport _ a => a

/-- A fixture file importing the `parents` module without an alias, used to
compare aliased and unaliased attribute references. -/
def unaliasedFile : FileBatch :=
  { modulePath := "complex_cases"
    imports := [.moduleImport "parents" "parents"]
    classes := [] }

/-- A run with a manufactured cycle (A inherits B, B inherits A) next to an
unrelated third class, per spec section 8. -/
def cycBatch : FileBatch :=
  { modulePath := "cyc"
    imports := []
    classes :=
      [ { module := "cyc", localName := "A"
          declared_base_refs := [.bare "B"]
          members := [mkMethod "ping" [] false] }
      , { module := "cyc", localName := "B"
          declared_base_refs := [.bare "A"]
          members := [] }
      , { module := "cyc", localName := "Solo"
          declared_base_refs := []
          members := [mkMethod "speak" [] false] } ] }

/-- The cyclic run and its graph. -/
def cycRun : List FileBatch := [cycBatch]

/-- A diamond hierarchy over arbitrary class identifiers: `a` and `b` each
inherit the common ancestor `o`, and `d` inherits both, `a` before `b`. -/
def diamondGraph (o a b d : String) : List (String × List String) :=
  [(d, [a, b]), (a, [o]), (b, [o]), (o, [])]

end OverrideMark

namespace OverrideMark

/-! ## Merge and linearization lemmas -/

/-- Unfolding lemma for one merge step. -/
lemma merge_succ (F : Nat) (lists : List (List String)) :
    merge (F + 1) lists =
      (if (normalizeLists lists).isEmpty then some []
       else
         match selectHead (normalizeLists lists) with
         | none => none
         | some c => (merge F (removeSym c (normalizeLists lists))).map (c :: ·)) := rfl

/-- A merge step only looks at the normalized list of lists. -/
lemma merge_congr (F : Nat) (ls1 ls2 : List (List String))
    (h : normalizeLists ls1 = normalizeLists ls2) :
    merge F ls1 = merge F ls2 := by
  cases F with
  | zero => rfl
  | succ F => rw [merge_succ, merge_succ, h]

/-- A selected head really heads one of the lists. -/
lemma selectHead_shape (lists : List (List String)) (c : String)
    (h : selectHead lists = some c) :
    ∃ l ∈ lists, ∃ t, l = c :: t := by
  obtain ⟨l, hl, hf⟩ := List.exists_of_findSome?_eq_some h
  cases l with
  | nil => simp at hf
  | cons x t =>
      refine ⟨x :: t, hl, t, ?_⟩
      by_cases hg : goodHead lists x
      · simp [hg] at hf
        rw [hf]
      · simp [hg] at hf

/-- A selected head passes the candidate check against every list. -/
lemma selectHead_good (lists : List (List String)) (c : String)
    (h : selectHead lists = some c) : goodHead lists c = true := by
  obtain ⟨l, hl, hf⟩ := List.exists_of_findSome?_eq_some h
  cases l with
  | nil => simp at hf
  | cons x t =>
      by_cases hg : goodHead lists x
      · simp [hg] at hf
        rw [← hf]
        exact hg
      · simp [hg] at hf

/-- Normalizing never increases the total length. -/
lemma totalLen_normalize_le (lists : List (List String)) :
    totalLen (normalizeLists lists) ≤ totalLen lists := by
  induction lists with
  | nil => simp [normalizeLists, totalLen]
  | cons l ls ih =>
      cases h : l.isEmpty with
      | true =>
          simp only [normalizeLists, totalLen, List.filter_cons, h, Bool.not_true,
            Bool.false_eq_true, if_false, List.map_cons, List.sum_cons] at ih ⊢
          omega
      | false =>
          simp only [normalizeLists, totalLen, List.filter_cons, h, Bool.not_false,
            if_true, List.map_cons, List.sum_cons] at ih ⊢
          omega

/-- Removing a symbol never increases the total length. -/
lemma totalLen_removeSym_le (c : String) (lists : List (List String)) :
    totalLen (removeSym c lists) ≤ totalLen lists := by
  induction lists with
  | nil => simp [removeSym, totalLen]
  | cons l ls ih =>
      simp only [removeSym, totalLen, List.map_cons, List.sum_cons] at ih ⊢
      have := List.length_filter_le (fun x => !(x == c)) l
      omega

/-- Removing a symbol that heads one of the lists strictly decreases the
total length. -/
lemma totalLen_removeSym_lt (c : String) (lists : List (List String))
    (h : ∃ l ∈ lists, ∃ t, l = c :: t) :
    totalLen (removeSym c lists) < totalLen lists := by
  induction lists with
  | nil => obtain ⟨l, hl, _⟩ := h; exact absurd hl (List.not_mem_nil l)
  | cons l ls ih =>
      obtain ⟨l0, hl0, t, ht⟩ := h
      rcases List.mem_cons.mp hl0 with he | hm
      · subst he
        subst ht
        simp only [removeSym, totalLen, List.map_cons, List.sum_cons]
        have h1 : ((c :: t).filter fun x => !(x == c)).length ≤ t.length := by
          simp only [List.filter_cons, beq_self_eq_true, Bool.not_true]
          exact List.length_filter_le _ t
        have h2 := totalLen_removeSym_le c ls
        simp only [removeSym, totalLen] at h2
        simp only [List.length_cons]
        omega
      · have h1 := List.length_filter_le (fun x => !(x == c)) l
        have h2 := ih ⟨l0, hm, t, ht⟩
        simp only [removeSym, totalLen, List.map_cons, List.sum_cons] at h2 ⊢
        omega

/-- Every element of a merge output comes from one of the input lists. -/
lemma merge_mem (F : Nat) (lists : List (List String)) (out : List String)
    (h : merge F lists = some out) : ∀ x ∈ out, ∃ l ∈ lists, x ∈ l := by
  induction F generalizing lists out with
  | zero => simp [merge] at h
  | succ F ih =>
      rw [merge_succ] at h
      split at h
      · obtain rfl : ([] : List String) = out := Option.some.inj h
        intro x hx
        exact absurd hx (List.not_mem_nil x)
      · split at h
        · exact absurd h (by simp)
        · next c hs =>
            cases hr : merge F (removeSym c (normalizeLists lists)) with
            | none =>
                rw [hr] at h
                exact absurd h (by simp)
            | some out2 =>
                rw [hr] at h
                obtain rfl : c :: out2 = out := Option.some.inj h
                intro x hx
                rcases List.mem_cons.mp hx with he2 | hm
                · subst he2
                  obtain ⟨l, hl, t, ht⟩ := selectHead_shape _ _ hs
                  exact ⟨l, List.mem_of_mem_filter hl,
                    by rw [ht]; exact List.mem_cons_self x t⟩
                · obtain ⟨l2, hl2, hx2⟩ := ih _ _ hr x hm
                  obtain ⟨l0, hl0, hf⟩ := List.mem_map.mp hl2
                  refine ⟨l0, List.mem_of_mem_filter hl0, ?_⟩
                  rw [← hf] at hx2
                  exact List.mem_of_mem_filter hx2

/-- A merge output never repeats a class: each selected head is removed from
all lists before the loop continues. -/
lemma merge_nodup (F : Nat) (lists : List (List String)) (out : List String)
    (h : merge F lists = some out) : out.Nodup := by
  induction F generalizing lists out with
  | zero => simp [merge] at h
  | succ F ih =>
      rw [merge_succ] at h
      split at h
      · obtain rfl : ([] : List String) = out := Option.some.inj h
        exact List.nodup_nil
      · split at h
        · exact absurd h (by simp)
        · next c hs =>
            cases hr : merge F (removeSym c (normalizeLists lists)) with
            | none =>
                rw [hr] at h
                exact absurd h (by simp)
            | some out2 =>
                rw [hr] at h
                obtain rfl : c :: out2 = out := Option.some.inj h
                refine List.nodup_cons.mpr ⟨?_, ih _ _ hr⟩
                intro hc
                obtain ⟨l, hl, hcl⟩ := merge_mem _ _ _ hr c hc
                obtain ⟨l0, _, hf⟩ := List.mem_map.mp hl
                rw [← hf] at hcl
                have := List.of_mem_filter hcl
                simp at this

/-- Merging a single duplicate-free list returns it unchanged. -/
lemma merge_singleton (t : List String) : ∀ F : Nat, t.Nodup → t.length < F →
    merge F [t] = some t := by
  induction t with
  | nil =>
      intro F _ hF
      cases F with
      | zero => omega
      | succ F => rw [merge_succ]; rfl
  | cons x t2 ih =>
      intro F hnd hF
      cases F with
      | zero => omega
      | succ F =>
          rw [merge_succ]
          have hx : x ∉ t2 := (List.nodup_cons.mp hnd).1
          have hgood : goodHead [x :: t2] x = true := by
            simp only [goodHead, List.all_cons, List.all_nil, Bool.and_true,
              List.tail_cons]
            simp [hx]
          have hsel : selectHead [x :: t2] = some x := by
            simp [selectHead, List.findSome?, hgood]
          have hnorm : normalizeLists [x :: t2] = [x :: t2] := by
            simp [normalizeLists]
          rw [hnorm, hsel]
          show Option.map (fun out => x :: out) (merge F (removeSym x [x :: t2])) =
            some (x :: t2)
          have hrm : removeSym x [x :: t2] = [t2] := by
            simp only [removeSym, List.map_cons, List.map_nil, List.filter_cons,
              beq_self_eq_true, Bool.not_true, if_neg, Bool.false_eq_true,
              not_false_eq_true]
            have : t2.filter (fun y => !(y == x)) = t2 := by
              refine List.filter_eq_self.mpr fun a ha => ?_
              have hax : a ≠ x := fun he => hx (he ▸ ha)
              simp [hax]
            rw [this]
          rw [hrm, ih F (List.nodup_cons.mp hnd).2
            (by simpa using Nat.lt_of_succ_lt_succ hF)]
          simp

/-- Unfolding lemma for one linearization step. -/
lemma linearize_succ (g : List (String × List String)) (fuel : Nat) (c : String) :
    linearize g (fuel + 1) c =
      (match allSome ((bases g c).map (linearize g fuel)) with
       | none => none
       | some ls =>
           (merge (totalLen (ls ++ [bases g c]) + 1) (ls ++ [bases g c])).map
             (c :: ·)) := rfl

/-- Sequencing succeeds exactly when every entry is `some`, and each output
entry occurs among the inputs. -/
lemma allSome_mem {α : Type} (xs : List (Option α)) (ys : List α)
    (h : allSome xs = some ys) : ∀ y ∈ ys, some y ∈ xs := by
  induction xs generalizing ys with
  | nil =>
      obtain rfl : ([] : List α) = ys := Option.some.inj h
      intro y hy
      exact absurd hy (List.not_mem_nil y)
  | cons o rest ih =>
      cases o with
      | none => exact absurd h (by simp [allSome])
      | some x =>
          rw [show allSome (some x :: rest) = (allSome rest).map (x :: ·) from rfl] at h
          cases hr : allSome rest with
          | none => rw [hr] at h; exact absurd h (by simp)
          | some ys2 =>
              rw [hr] at h
              obtain rfl : x :: ys2 = ys := Option.some.inj h
              intro y hy
              rcases List.mem_cons.mp hy with rfl | hm
              · exact List.mem_cons_self _ _
              · exact List.mem_cons_of_mem _ (ih ys2 hr y hm)

/-- When sequencing a mapped list succeeds, every input maps to `some`. -/
lemma allSome_map_forall {α β : Type} (f : α → Option β) (xs : List α)
    (ys : List β) (h : allSome (xs.map f) = some ys) :
    ∀ x ∈ xs, ∃ y, f x = some y := by
  induction xs generalizing ys with
  | nil => intro x hx; exact absurd hx (List.not_mem_nil x)
  | cons x0 rest ih =>
      rw [List.map_cons] at h
      cases hf : f x0 with
      | none => rw [hf] at h; exact absurd h (by simp [allSome])
      | some y0 =>
          rw [hf] at h
          rw [show allSome (some y0 :: rest.map f) = (allSome (rest.map f)).map (y0 :: ·)
            from rfl] at h
          cases hr : allSome (rest.map f) with
          | none => rw [hr] at h; exact absurd h (by simp)
          | some ys2 =>
              intro x hx
              rcases List.mem_cons.mp hx with rfl | hm
              · exact ⟨y0, hf⟩
              · exact ih ys2 hr x hm

/-- A successful linearization starts with the class itself. -/
lemma linearize_shape (g : List (String × List String)) (fuel : Nat)
    (c : String) (L : List String) (h : linearize g fuel c = some L) :
    ∃ t, L = c :: t := by
  cases fuel with
  | zero => exact absurd h (by simp [linearize])
  | succ fuel =>
      rw [linearize_succ] at h
      split at h
      · exact absurd h (by simp)
      · next ls _ =>
          cases hm : merge (totalLen (ls ++ [bases g c]) + 1) (ls ++ [bases g c]) with
          | none => rw [hm] at h; exact absurd h (by simp)
          | some merged =>
              rw [hm] at h
              exact ⟨merged, (Option.some.inj h).symm⟩

/-- A successful linearization step linearizes every direct base at the
smaller fuel. -/
lemma linearize_base_success (g : List (String × List String)) (fuel : Nat)
    (c : String) (L : List String) (h : linearize g (fuel + 1) c = some L) :
    ∀ b ∈ bases g c, ∃ Lb, linearize g fuel b = some Lb := by
  rw [linearize_succ] at h
  split at h
  · exact absurd h (by simp)
  · next ls hls => exact allSome_map_forall _ _ _ hls

/-- Every class in the tail of a successful linearization is a proper
transitive ancestor of the linearized class. -/
lemma linearize_tail_reach (g : List (String × List String)) (fuel : Nat)
    (c : String) (L : List String) (h : linearize g fuel c = some L) :
    ∀ x ∈ L.tail, Relation.TransGen (inheritsDir g) c x := by
  induction fuel generalizing c L with
  | zero => exact absurd h (by simp [linearize])
  | succ fuel ih =>
      rw [linearize_succ] at h
      split at h
      · exact absurd h (by simp)
      · next ls hls =>
          cases hm : merge (totalLen (ls ++ [bases g c]) + 1) (ls ++ [bases g c]) with
          | none => rw [hm] at h; exact absurd h (by simp)
          | some merged =>
              rw [hm] at h
              obtain rfl : c :: merged = L := Option.some.inj h
              intro x hx
              rw [List.tail_cons] at hx
              obtain ⟨l, hl, hxl⟩ := merge_mem _ _ _ hm x hx
              rcases List.mem_append.mp hl with hin | hbs
              · have hsome := allSome_mem _ _ hls l hin
                obtain ⟨b, hb, hfb⟩ := List.mem_map.mp hsome
                obtain ⟨t, rfl⟩ := linearize_shape _ _ _ _ hfb
                rcases List.mem_cons.mp hxl with rfl | ht
                · exact Relation.TransGen.single hb
                · exact Relation.TransGen.head hb (ih b _ hfb x ht)
              · rw [List.mem_singleton.mp hbs] at hxl
                exact Relation.TransGen.single hxl

/-- A class on an inheritance cycle never linearizes: the recursion descends
through its own bases for ever and exhausts any fuel. -/
lemma linearize_cyclic_none (g : List (String × List String)) :
    ∀ fuel c, Relation.TransGen (inheritsDir g) c c → linearize g fuel c = none := by
  intro fuel
  induction fuel with
  | zero => intro c _; rfl
  | succ fuel ih =>
      intro c hcyc
      obtain ⟨b, hcb, hbc⟩ := (Relation.TransGen.head'_iff).mp hcyc
      have hbcyc : Relation.TransGen (inheritsDir g) b b :=
        Relation.TransGen.tail' hbc hcb
      by_contra hne
      obtain ⟨L, hL⟩ := Option.ne_none_iff_exists'.mp hne
      obtain ⟨Lb, hLb⟩ := linearize_base_success _ _ _ _ hL b hcb
      rw [ih b hbcyc] at hLb
      exact Option.noConfusion hLb

/-- A successful linearization never repeats a class. -/
lemma linearize_nodup (g : List (String × List String)) (fuel : Nat)
    (c : String) (L : List String) (h : linearize g fuel c = some L) :
    L.Nodup := by
  cases fuel with
  | zero => exact absurd h (by simp [linearize])
  | succ fuel =>
      obtain ⟨t, rfl⟩ := linearize_shape _ _ _ _ h
      have hrec : linearize g (fuel + 1) c = some (c :: t) := h
      rw [linearize_succ] at hrec
      split at hrec
      · exact absurd hrec (by simp)
      · next ls hls =>
          cases hm : merge (totalLen (ls ++ [bases g c]) + 1) (ls ++ [bases g c]) with
          | none => rw [hm] at hrec; exact absurd hrec (by simp)
          | some merged =>
              rw [hm] at hrec
              obtain heq : c :: merged = c :: t := Option.some.inj hrec
              obtain rfl : merged = t := (List.cons.injEq _ _ _ _).mp heq |>.2
              refine List.nodup_cons.mpr ⟨?_, merge_nodup _ _ _ hm⟩
              intro hc
              have hreach := linearize_tail_reach _ _ _ _ h c (by simpa using hc)
              rw [linearize_cyclic_none g (fuel + 1) c hreach] at h
              exact Option.noConfusion h

/-- A class with no resolved bases linearizes to itself alone. -/
lemma linearize_nobase (g : List (String × List String)) (fuel : Nat)
    (c : String) (h : bases g c = []) :
    linearize g (fuel + 1) c = some [c] := by
  rw [linearize_succ, h]
  rfl

/-- A class with exactly one resolved base extends that base's successful
linearization. -/
lemma linearize_onebase (g : List (String × List String)) (fuel : Nat)
    (c b : String) (L : List String) (hb : bases g c = [b])
    (hL : linearize g fuel b = some L) :
    linearize g (fuel + 1) c = some (c :: L) := by
  obtain ⟨t, rfl⟩ := linearize_shape _ _ _ _ hL
  have hnd := linearize_nodup _ _ _ _ hL
  have hbt : b ∉ t := (List.nodup_cons.mp hnd).1
  rw [linearize_succ, hb, List.map_cons, List.map_nil, hL]
  show (merge (totalLen ([b :: t] ++ [[b]]) + 1) ([b :: t] ++ [[b]])).map (c :: ·) =
    some (c :: b :: t)
  have hTL : totalLen ([b :: t] ++ [[b]]) + 1 = t.length + 3 := by
    simp only [totalLen, List.cons_append, List.nil_append, List.map_cons,
      List.map_nil, List.sum_cons, List.sum_nil, List.length_cons,
      List.length_nil]
    omega
  rw [hTL]
  have hgood : goodHead [b :: t, [b]] b = true := by
    simp only [goodHead, List.all_cons, List.all_nil, Bool.and_true, List.tail_cons,
      List.tail_nil]
    simp [hbt]
  have hsel : selectHead [b :: t, [b]] = some b := by
    simp [selectHead, List.findSome?, hgood]
  have hnorm : normalizeLists [b :: t, [b]] = [b :: t, [b]] := by
    simp [normalizeLists]
  have hfilt : t.filter (fun y => !(y == b)) = t := by
    refine List.filter_eq_self.mpr fun a ha => ?_
    have hab : a ≠ b := fun he => hbt (he ▸ ha)
    simp [hab]
  have hrm : removeSym b [b :: t, [b]] = [t, []] := by
    simp only [removeSym, List.map_cons, List.map_nil, List.filter_cons,
      beq_self_eq_true, Bool.not_true, Bool.false_eq_true, if_false, List.filter_nil]
    rw [hfilt]
  have hpair : merge (t.length + 2) [t, []] = some t := by
    rw [merge_congr (t.length + 2) [t, []] [t] (by cases t <;> simp [normalizeLists])]
    exact merge_singleton t (t.length + 2) (List.nodup_cons.mp hnd).2 (by omega)
  show (merge (t.length + 2 + 1) [b :: t, [b]]).map (c :: ·) = some (c :: b :: t)
  rw [merge_succ, hnorm, hsel]
  show Option.map (c :: ·) (Option.map (fun out => b :: out)
    (merge (t.length + 2) (removeSym b [b :: t, [b]]))) = some (c :: b :: t)
  rw [hrm, hpair]
  rfl

/-- Closed-form linearization of an arbitrary diamond: the merged class, its
two direct bases in declared order, then the shared ancestor once. -/
lemma diamond_linearize_eq (o a b d : String) (h1 : a ≠ o) (h2 : b ≠ o)
    (h3 : d ≠ o) (h4 : a ≠ b) (h5 : d ≠ a) (h6 : d ≠ b) :
    linearize (diamondGraph o a b d) 5 d = some [d, a, b, o] := by
  set g := diamondGraph o a b d with hg
  have e1 : (a == o) = false := by simp [h1]
  have e2 : (b == o) = false := by simp [h2]
  have e3 : (d == o) = false := by simp [h3]
  have e4 : (a == b) = false := by simp [h4]
  have e5 : (d == a) = false := by simp [h5]
  have e6 : (d == b) = false := by simp [h6]
  have e1s : (o == a) = false := by simp [Ne.symm h1]
  have e2s : (o == b) = false := by simp [Ne.symm h2]
  have e4s : (b == a) = false := by simp [Ne.symm h4]
  have hbo : bases g o = [] := by
    simp [hg, bases, diamondGraph, List.find?, e3, e1, e2]
  have hba : bases g a = [o] := by
    simp [hg, bases, diamondGraph, List.find?, e5]
  have hbb : bases g b = [o] := by
    simp [hg, bases, diamondGraph, List.find?, e6, e4]
  have hbd : bases g d = [a, b] := by
    simp [hg, bases, diamondGraph, List.find?]
  have lino : ∀ f, linearize g (f + 1) o = some [o] := fun f =>
    linearize_nobase g f o hbo
  have lina : ∀ f, linearize g (f + 2) a = some [a, o] := fun f =>
    linearize_onebase g (f + 1) a o [o] hba (lino f)
  have linb : ∀ f, linearize g (f + 2) b = some [b, o] := fun f =>
    linearize_onebase g (f + 1) b o [o] hbb (lino f)
  have key : linearize g (4 + 1) d =
      (merge (totalLen ([[a, o], [b, o]] ++ [[a, b]]) + 1)
        ([[a, o], [b, o]] ++ [[a, b]])).map (d :: ·) := by
    rw [linearize_succ, hbd, List.map_cons, List.map_cons, List.map_nil]
    rw [show linearize g 4 a = some [a, o] from lina 2,
        show linearize g 4 b = some [b, o] from linb 2]
    rfl
  have m5 : merge (4 + 1) [[o], [o], []] = some [o] := by
    rw [merge_succ]
    rw [show normalizeLists [[o], [o], []] = [[o], [o]] from by simp [normalizeLists]]
    rw [show selectHead [[o], [o]] = some o from by
      simp [selectHead, List.findSome?, goodHead, h1, h2, h3, h4, h5, h6]]
    show Option.map (fun out => o :: out) (merge 4 (removeSym o [[o], [o]])) = some [o]
    rw [show removeSym o [[o], [o]] = [[], []] from by
      simp [removeSym, h1, h2, h3, h4, h5, h6]]
    rfl
  have m6 : merge (5 + 1) [[o], [b, o], [b]] = some [b, o] := by
    rw [merge_succ]
    rw [show normalizeLists [[o], [b, o], [b]] = [[o], [b, o], [b]] from by
      simp [normalizeLists]]
    rw [show selectHead [[o], [b, o], [b]] = some b from by
      simp [selectHead, List.findSome?, goodHead, e2, h1, h2, h3, h4, h5, h6]]
    show Option.map (fun out => b :: out) (merge 5 (removeSym b [[o], [b, o], [b]])) =
      some [b, o]
    rw [show removeSym b [[o], [b, o], [b]] = [[o], [o], []] from by
      simp [removeSym, e2s, h2, Ne.symm h2, Ne.symm h4]]
    rw [m5]
    rfl
  have m7 : merge (6 + 1) [[a, o], [b, o], [a, b]] = some [a, b, o] := by
    rw [merge_succ]
    rw [show normalizeLists [[a, o], [b, o], [a, b]] = [[a, o], [b, o], [a, b]] from by
      simp [normalizeLists]]
    rw [show selectHead [[a, o], [b, o], [a, b]] = some a from by
      simp [selectHead, List.findSome?, goodHead, e1, e4s, h1, h2, h3, h4, h5, h6,
        Ne.symm h4]]
    show Option.map (fun out => a :: out)
      (merge 6 (removeSym a [[a, o], [b, o], [a, b]])) = some [a, b, o]
    rw [show removeSym a [[a, o], [b, o], [a, b]] = [[o], [b, o], [b]] from by
      simp [removeSym, e1s, e4s, Ne.symm h1, Ne.symm h4, h4]]
    rw [m6]
    rfl
  have hTL : totalLen ([[a, o], [b, o]] ++ [[a, b]]) + 1 = 6 + 1 := by
    simp [totalLen]
  rw [show (5 : Nat) = 4 + 1 from rfl, key, hTL]
  simp only [List.cons_append, List.nil_append]
  rw [m7]
  rfl

/-- A state whose normalization is empty has no selectable head at all. -/
lemma selectHead_of_reach_nonempty (ls : List (List String)) (c : String)
    (h : selectHead (normalizeLists ls) = some c) :
    (normalizeLists ls).isEmpty = false := by
  cases hn : normalizeLists ls with
  | nil => rw [hn] at h; exact absurd h (by simp [selectHead, List.findSome?])
  | cons l rest => rfl

/-! ## Claim theorems -/

/-- C1: In the Bread / Sandwich / Burger fixture hierarchy, Burger's
OverrideEdge for `prep` is classified `override` with target Sandwich;
Burger's OverrideEdge for `has_top` is classified `override_calls_ancestor`
with target Sandwich (purely structural: the super call's runtime viability
is not examined, only the calls_super flag extracted from the body); and
Sandwich's OverrideEdge for `prep` is classified `implements_abstract` with
target Bread. -/
theorem burger_sandwich_override_edges :
    fixtureEdge "complex_cases.Burger" "prep" =
      some { class_id := "complex_cases.Burger", method_name := "prep"
             kind := .override, target := some "complex_cases.Sandwich" } ∧
    fixtureEdge "complex_cases.Burger" "has_top" =
      some { class_id := "complex_cases.Burger", method_name := "has_top"
             kind := .override_calls_ancestor, target := some "complex_cases.Sandwich" } ∧
    fixtureEdge "complex_cases.Sandwich" "prep" =
      some { class_id := "complex_cases.Sandwich", method_name := "prep"
             kind := .implements_abstract, target := some "complex_cases.Bread" } := by
  refine ⟨?_, ?_, ?_⟩ <;> rfl

/-- C10: The Declaration Extractor derives a method's kind purely from the
textual names of its attached decorators, with no symbol resolution or import
check: the extraction of any raw method is a function of its decorator list
alone; in the fixture, Bread.prep gets kind `abstract` from the bare
abstractmethod decorator even though no import of the file binds the name
abstractmethod, and Sandwich.has_top gets kind `prop` the same way. -/
theorem kind_from_decorator_text_only :
    (∀ m : RawMethod, (extractMethod m).kind = kindOfDecorators m.decorators) ∧
    (findMember fixtureRun "complex_cases.Bread" "prep").map MethodDeclaration.kind =
      some .abstract ∧
    (complexCasesBatch.imports.all fun i => ¬ i.boundName == "abstractmethod") = true ∧
    (findMember fixtureRun "complex_cases.Sandwich" "has_top").map MethodDeclaration.kind =
      some .prop := by
  exact ⟨fun _ => rfl, rfl, rfl, rfl⟩

/-- C3: Trivial linearizations: a class with no resolved bases linearizes to
exactly itself, and a class with exactly one base whose linearization
succeeds linearizes to itself followed by the base's linearization; in
neither case does the computation fail with LinearizationError — a successful
`some` result is returned. -/
theorem trivial_linearizations (g : List (String × List String)) (c b : String)
    (L : List String) (fuel : Nat) :
    (bases g c = [] → linearize g (fuel + 1) c = some [c]) ∧
    (bases g c = [b] → linearize g fuel b = some L →
      linearize g (fuel + 1) c = some (c :: L)) :=
  ⟨fun h => linearize_nobase g fuel c h,
   fun hb hL => linearize_onebase g fuel c b L hb hL⟩

/-- Closed instance of C3: Bread (no bases) and Sandwich (single base Bread)
in the fixture graph. -/
theorem trivial_linearizations_witness :
    linearize (buildGraph fixtureRun) 1 "complex_cases.Bread" =
      some ["complex_cases.Bread"] ∧
    linearize (buildGraph fixtureRun) 2 "complex_cases.Sandwich" =
      some ["complex_cases.Sandwich", "complex_cases.Bread"] :=
  ⟨(trivial_linearizations (buildGraph fixtureRun) "complex_cases.Bread"
      "complex_cases.Bread" ["complex_cases.Bread"] 0).1 rfl,
   (trivial_linearizations (buildGraph fixtureRun) "complex_cases.Sandwich"
      "complex_cases.Bread" ["complex_cases.Bread"] 1).2 rfl rfl⟩

/-- C4: Every diamond hierarchy (two independent classes each inheriting a
common ancestor, a third class inheriting both) linearizes with the shared
ancestor appearing exactly once, positioned after both of its direct children
taken in the merged class's declared order. -/
theorem diamond_shared_ancestor_once (o a b d : String) (h1 : a ≠ o)
    (h2 : b ≠ o) (h3 : d ≠ o) (h4 : a ≠ b) (h5 : d ≠ a) (h6 : d ≠ b) :
    ∃ L, linearize (diamondGraph o a b d) (linFuel (diamondGraph o a b d)) d =
      some L ∧
    L.count o = 1 ∧
    ∃ ia ib io : Fin L.length,
      L.get ia = a ∧ L.get ib = b ∧ L.get io = o ∧ ia < ib ∧ ib < io := by
  refine ⟨[d, a, b, o], ?_, ?_, ?_⟩
  · exact diamond_linearize_eq o a b d h1 h2 h3 h4 h5 h6
  · simp [List.count_cons, h1, h2, h3]
  · exact ⟨⟨1, by norm_num⟩, ⟨2, by norm_num⟩, ⟨3, by norm_num⟩, rfl, rfl, rfl,
      by norm_num [Fin.lt_def], by norm_num [Fin.lt_def]⟩

/-- Closed instance of C4: a concrete diamond Organism / Animal / Bird /
Dragon. -/
theorem diamond_shared_ancestor_once_witness :
    ∃ L, linearize (diamondGraph "Organism" "Animal" "Bird" "Dragon")
      (linFuel (diamondGraph "Organism" "Animal" "Bird" "Dragon")) "Dragon" =
      some L ∧
    L.count "Organism" = 1 ∧
    ∃ ia ib io : Fin L.length,
      L.get ia = "Animal" ∧ L.get ib = "Bird" ∧ L.get io = "Organism" ∧
      ia < ib ∧ ib < io :=
  diamond_shared_ancestor_once "Organism" "Animal" "Bird" "Dragon"
    (by decide) (by decide) (by decide) (by decide) (by decide) (by decide)

/-- C6: Given enough fuel, the C3 merge fails if and only if the selection
loop reaches a state in which lists remain but no candidate head is valid
(every head appears in another list's tail); in that case `none` is returned
— no linearization, and no arbitrary tie-break. -/
theorem merge_fails_iff_stuck (F : Nat) (lists : List (List String))
    (hF : totalLen lists < F) :
    merge F lists = none ↔ ∃ s, MergeReaches lists s ∧ Stuck s := by
  constructor
  · intro h
    induction F generalizing lists with
    | zero => omega
    | succ F ih =>
        rw [merge_succ] at h
        by_cases he : (normalizeLists lists).isEmpty = true
        · rw [if_pos he] at h
          exact absurd h (by simp)
        · rw [if_neg he] at h
          cases hs : selectHead (normalizeLists lists) with
          | none =>
              refine ⟨lists, MergeReaches.refl lists, ?_, hs⟩
              intro hnil
              exact he (by rw [hnil]; rfl)
          | some c =>
              rw [hs] at h
              have h2 : (merge F (removeSym c (normalizeLists lists))).map (c :: ·) =
                  none := h
              have hm : merge F (removeSym c (normalizeLists lists)) = none := by
                cases hr : merge F (removeSym c (normalizeLists lists)) with
                | none => rfl
                | some out => rw [hr] at h2; exact absurd h2 (by simp)
              have hlt1 : totalLen (removeSym c (normalizeLists lists)) <
                  totalLen (normalizeLists lists) :=
                totalLen_removeSym_lt c _ (selectHead_shape _ _ hs)
              have hlt2 := totalLen_normalize_le lists
              obtain ⟨s, hreach, hstuck⟩ := ih _ (by omega) hm
              exact ⟨s, MergeReaches.step lists s c hs hreach, hstuck⟩
  · intro hw
    obtain ⟨s, hreach, hstuck⟩ := hw
    induction hreach generalizing F with
    | refl ls =>
        cases F with
        | zero => omega
        | succ F =>
            rw [merge_succ]
            obtain ⟨hne, hsel⟩ := hstuck
            rw [if_neg (by simpa using hne), hsel]
    | step ls s c hsel hrest ih =>
        cases F with
        | zero => omega
        | succ F =>
            rw [merge_succ]
            rw [if_neg (by simp [selectHead_of_reach_nonempty ls c hsel]), hsel]
            have hlt1 : totalLen (removeSym c (normalizeLists ls)) <
                totalLen (normalizeLists ls) :=
              totalLen_removeSym_lt c _ (selectHead_shape _ _ hsel)
            have hlt2 := totalLen_normalize_le ls
            show (merge F (removeSym c (normalizeLists ls))).map (c :: ·) = none
            rw [ih F (by omega) hstuck]
            rfl

/-- Closed instance of C6: two lists demanding opposite precedences are
stuck immediately. -/
theorem merge_fails_iff_stuck_witness :
    merge 5 [["x", "y"], ["y", "x"]] = none ↔
      ∃ s, MergeReaches [["x", "y"], ["y", "x"]] s ∧ Stuck s :=
  merge_fails_iff_stuck 5 [["x", "y"], ["y", "x"]] (by decide)

/-- C9: The full pipeline is a pure, deterministic function of the per-file
declaration batches: running it twice on the identical input produces the
identical per-class OverrideEdge sets and Linearizations. -/
theorem pipeline_deterministic (input : List FileBatch) :
    runPipeline input = runPipeline input := rfl

/-- C2: An import alias is substituted transparently: resolving `alias.Name`
under `import module as alias` equals resolving the unaliased `module.Name`
reference under `import module`; in the fixture, AliasedChild's base `p.Base`
resolves to the same qualified_id as StandardChild's base `Base` (a direct
from-import of the same class), namely parents.Base. -/
theorem alias_resolution_transparent (run : List FileBatch) (f1 f2 : FileBatch)
    (a src n : String)
    (h1 : lookupModuleAlias f1 a = some src)
    (h2 : lookupModuleAlias f2 src = some src) :
    resolveBaseRef run f1 (.attr a n) = resolveBaseRef run f2 (.attr src n) ∧
    resolveBaseRef fixtureRun complexCasesBatch (.attr "p" "Base") =
      resolveBaseRef fixtureRun complexCasesBatch (.bare "Base") ∧
    resolveBaseRef fixtureRun complexCasesBatch (.attr "p" "Base") =
      some "parents.Base" := by
  refine ⟨?_, rfl, rfl⟩
  simp only [resolveBaseRef, h1, h2]

/-- Closed instance of C2: the fixture alias `p` against an unaliased
`import parents`. -/
theorem alias_resolution_transparent_witness :
    resolveBaseRef fixtureRun complexCasesBatch (.attr "p" "Base") =
      resolveBaseRef fixtureRun unaliasedFile (.attr "parents" "Base") ∧
    resolveBaseRef fixtureRun complexCasesBatch (.attr "p" "Base") =
      resolveBaseRef fixtureRun complexCasesBatch (.bare "Base") ∧
    resolveBaseRef fixtureRun complexCasesBatch (.attr "p" "Base") =
      some "parents.Base" :=
  alias_resolution_transparent fixtureRun complexCasesBatch unaliasedFile
    "p" "parents" "Base" rfl rfl

/-- C5: A method declared by a class whose linearization contains no ancestor
declaring the same name is classified `new` with no target; in the fixture,
HotDog's `has_top` is `new` (Sandwich's sibling property does not leak into
HotDog's resolution, which only scans HotDog's own linearization). -/
theorem new_when_no_ancestor_declares (run : List FileBatch) (lin : List String)
    (cid : String) (d : MethodDeclaration)
    (h : overrideTarget run lin d.name = none) :
    classifyMember run lin cid d =
      { class_id := cid, method_name := d.name, kind := .new, target := none } ∧
    fixtureEdge "complex_cases.HotDog" "has_top" =
      some { class_id := "complex_cases.HotDog", method_name := "has_top"
             kind := .new, target := none } := by
  constructor
  · unfold classifyMember
    rw [h]
  · rfl

/-- C7: On the manufactured cycle (A inherits B, B inherits A), both members
fail with CyclicHierarchy naming exactly the participating classes, and the
failure is confined: a class that neither lies on a cycle nor depends on one
never receives a CyclicHierarchy failure, and the unrelated class Solo in the
same run produces its full result. -/
theorem cyclic_hierarchy_confined (run : List FileBatch)
    (g : List (String × List String)) (cid : String) (ps : List String)
    (h : dependsOnCycle g cid = false) :
    analyzeClass run g cid ≠ .error (.cyclicHierarchy ps) ∧
    analyzeClass cycRun (buildGraph cycRun) "cyc.A" =
      .error (.cyclicHierarchy ["cyc.A", "cyc.B"]) ∧
    analyzeClass cycRun (buildGraph cycRun) "cyc.B" =
      .error (.cyclicHierarchy ["cyc.A", "cyc.B"]) ∧
    analyzeClass cycRun (buildGraph cycRun) "cyc.Solo" =
      .ok { lin := ["cyc.Solo"]
            edges := [{ class_id := "cyc.Solo", method_name := "speak"
                        kind := .new, target := none }] } := by
  refine ⟨?_, rfl, rfl, rfl⟩
  unfold analyzeClass
  rw [h]
  cases hl : linearize g (linFuel g) cid <;> simp

/-- Closed instance of C7: the unrelated class Solo is not failed with
CyclicHierarchy. -/
theorem cyclic_hierarchy_confined_witness :
    analyzeClass cycRun (buildGraph cycRun) "cyc.Solo" ≠
      .error (.cyclicHierarchy ["cyc.A", "cyc.B"]) ∧
    analyzeClass cycRun (buildGraph cycRun) "cyc.A" =
      .error (.cyclicHierarchy ["cyc.A", "cyc.B"]) ∧
    analyzeClass cycRun (buildGraph cycRun) "cyc.B" =
      .error (.cyclicHierarchy ["cyc.A", "cyc.B"]) ∧
    analyzeClass cycRun (buildGraph cycRun) "cyc.Solo" =
      .ok { lin := ["cyc.Solo"]
            edges := [{ class_id := "cyc.Solo", method_name := "speak"
                        kind := .new, target := none }] } :=
  cyclic_hierarchy_confined cycRun (buildGraph cycRun) "cyc.Solo"
    ["cyc.A", "cyc.B"] (by decide)

/-- Classification never changes the class or the method name of the edge. -/
lemma classifyMember_fields (run : List FileBatch) (lin : List String)
    (cid : String) (d : MethodDeclaration) :
    (classifyMember run lin cid d).method_name = d.name ∧
    (classifyMember run lin cid d).class_id = cid := by
  unfold classifyMember
  cases h : overrideTarget run lin d.name with
  | none => exact ⟨rfl, rfl⟩
  | some p =>
      obtain ⟨a, anc⟩ := p
      by_cases h1 : anc.kind == .abstract
      · simp [h1]
      · by_cases h2 : d.calls_super <;> simp [h1, h2]

/-- C8: The Override Resolver only fires for members a class explicitly
declares: every OverrideEdge of class `cid` carries the name of a member of
`cid`'s own declaration; a method inherited but not redeclared yields no
edge.  In the fixture, NestedParent (declaring no members) gets no edges at
all, and ObjectB (not redeclaring method_a) gets no edge for method_a. -/
theorem edges_only_for_declared_members (run : List FileBatch)
    (lin : List String) (cid : String) (e : OverrideEdge)
    (h : e ∈ overrideEdges run lin cid) :
    (∃ c, findClass run cid = some c ∧
      ∃ d ∈ c.members, d.name = e.method_name ∧ e.class_id = cid) ∧
    fixtureResult "complex_cases.NestedParent" =
      .ok { lin := ["complex_cases.NestedParent", "complex_cases.MultiLineChild",
                    "parents.Base", "parents.Mixin"], edges := [] } ∧
    fixtureEdge "subclass.ObjectB" "method_a" = none := by
  refine ⟨?_, rfl, rfl⟩
  unfold overrideEdges at h
  cases hc : findClass run cid with
  | none => rw [hc] at h; exact absurd h (List.not_mem_nil e)
  | some c =>
      rw [hc] at h
      obtain ⟨d, hd, hde⟩ := List.mem_map.mp h
      refine ⟨c, rfl, d, hd, ?_, ?_⟩
      · rw [← hde]
        exact (classifyMember_fields run lin cid d).1.symm
      · rw [← hde]
        exact (classifyMember_fields run lin cid d).2

/-- Closed instance of C8: Burger's prep edge names a member Burger itself
declares. -/
theorem edges_only_for_declared_members_witness :
    (∃ c, findClass fixtureRun "complex_cases.Burger" = some c ∧
      ∃ d ∈ c.members, d.name = "prep" ∧ "complex_cases.Burger" = "complex_cases.Burger") ∧
    fixtureResult "complex_cases.NestedParent" =
      .ok { lin := ["complex_cases.NestedParent", "complex_cases.MultiLineChild",
                    "parents.Base", "parents.Mixin"], edges := [] } ∧
    fixtureEdge "subclass.ObjectB" "method_a" = none :=
  edges_only_for_declared_members fixtureRun
    ["complex_cases.Burger", "complex_cases.Sandwich", "complex_cases.Bread"]
    "complex_cases.Burger"
    { class_id := "complex_cases.Burger", method_name := "prep"
      kind := .override, target := some "complex_cases.Sandwich" }
    (by decide)

/-- Closed instance of C5: HotDog's own declaration of `has_top` over
HotDog's linearization. -/
theorem new_when_no_ancestor_declares_witness :
    classifyMember fixtureRun ["complex_cases.HotDog", "complex_cases.Bread"]
      "complex_cases.HotDog" (mkMethod "has_top" ["property"] false) =
      { class_id := "complex_cases.HotDog", method_name := "has_top"
        kind := .new, target := none } ∧
    fixtureEdge "complex_cases.HotDog" "has_top" =
      some { class_id := "complex_cases.HotDog", method_name := "has_top"
             kind := .new, target := none } :=
  new_when_no_ancestor_declares fixtureRun
    ["complex_cases.HotDog", "complex_cases.Bread"] "complex_cases.HotDog"
    (mkMethod "has_top" ["property"] false) rfl

end OverrideMark
